import Mathlib

set_option maxHeartbeats 1000000

/-
Verification development for the two-tier URL crawler.

Go strings are modeled as `List Char` (the crawler only manipulates ASCII
bytes).  Machine integers (`int`, sizes, depths) are modeled as `Nat`: all
quantities involved are lengths or depths, which are non-negative and far
below overflow in the source.  Fallible or panicking operations return
`Option` (`none` models a Go panic or error).
-/

/-- Model of the ASCII branch of Go `strings.ToLower` on a single character:
bytes 65..90 (`A`..`Z`) are shifted by 32, all others unchanged. -/
def lowerChar (c : Char) : Char :=
  if 65 ≤ c.toNat ∧ c.toNat ≤ 90 then Char.ofNat (c.toNat + 32) else c

/-- Model of Go `strings.ToLower` on an ASCII string. -/
def lowerStr (s : List Char) : List Char := s.map lowerChar

/-- Splits a list at the first occurrence of `c`: the part strictly before it,
and the remainder starting at `c` itself (empty when `c` is absent). -/
def breakAt (c : Char) (l : List Char) : List Char × List Char :=
  (l.takeWhile (· != c), l.dropWhile (· != c))

/-- Model of Go `strings.Split` with a one-character separator.  Like Go's, the
result is always non-empty. -/
def splitOnChar (c : Char) : List Char → List (List Char)
  | [] => [[]]
  | x :: xs =>
    if x = c then [] :: splitOnChar c xs
    else
      match splitOnChar c xs with
      | [] => [[x]]
      | h :: t => (x :: h) :: t

/-- Model of Go `strings.Contains pat` (substring search). -/
def containsSub (pat : List Char) : List Char → Bool
  | [] => pat.isPrefixOf []
  | x :: xs => pat.isPrefixOf (x :: xs) || containsSub pat xs

/-- Model of the `net/url` `URL` struct restricted to the fields this program
reads or writes: `Scheme`, `Host`, `Path`, `RawQuery`, `Fragment`.  Userinfo,
opaque parts and escaping are outside the model. -/
structure GoURL where
  scheme : List Char
  host : List Char
  path : List Char
  rawQuery : List Char
  fragment : List Char
deriving DecidableEq, Repr

/-- Model of `(net/url URL).String()` for URLs in the modeled subset:
`scheme:` when the scheme is set, `//host` when the host is set, then path,
`?query` and `#fragment` when non-empty. -/
def urlString (u : GoURL) : List Char :=
  (if u.scheme = [] then [] else u.scheme ++ [':']) ++
  (if u.host = [] then [] else '/' :: '/' :: u.host) ++
  u.path ++
  (if u.rawQuery = [] then [] else '?' :: u.rawQuery) ++
  (if u.fragment = [] then [] else '#' :: u.fragment)

/-- Splits an authority-plus-path string into host (up to the first `/`) and
the remaining path. -/
def parseAuthority (l : List Char) : List Char × List Char :=
  (l.takeWhile (· != '/'), l.dropWhile (· != '/'))

/-- Model of `net/url.Parse` restricted to the URL shapes this program
produces and consumes: an optional `scheme://` part, host up to the first
slash, then path, with the query split at the first `?` and the fragment at
the first `#`.  Scheme validation, escaping, userinfo and opaque URLs are
outside the model. -/
def parseURL (s : List Char) : GoURL :=
  let p1 := breakAt '#' s
  let frag := p1.2.drop 1
  let p2 := breakAt '?' p1.1
  let query := p2.2.drop 1
  let core := p2.1
  match breakAt ':' core with
  | (pre, ':' :: '/' :: '/' :: r) =>
    let hp := parseAuthority r
    ⟨pre, hp.1, hp.2, query, frag⟩
  | _ =>
    if core.take 2 = ['/', '/'] then
      let hp := parseAuthority (core.drop 2)
      ⟨[], hp.1, hp.2, query, frag⟩
    else ⟨[], [], core, query, frag⟩

/-- Well-formedness of a parsed URL as produced by `net/url.Parse` on the URL
shapes the crawler handles: non-empty scheme and host, no reserved delimiter
inside a component, and a path that is empty or starts with a slash.  Every
`url.URL` the program passes to `NormalizeParsedURL` comes from `url.Parse`
on an absolute URL and satisfies this. -/
def wellFormedURL (u : GoURL) : Prop :=
  u.scheme ≠ [] ∧ u.host ≠ [] ∧
  (∀ c ∈ u.scheme, c ≠ ':' ∧ c ≠ '?' ∧ c ≠ '#') ∧
  (∀ c ∈ u.host, c ≠ '/' ∧ c ≠ '?' ∧ c ≠ '#') ∧
  (∀ c ∈ u.path, c ≠ '?' ∧ c ≠ '#') ∧
  (u.path = [] ∨ u.path.head? = some '/')

namespace Utils

/-- Model of `utils.NormalizeParsedURL` (src/utils/utils.go:14-18).  Go
mutates the argument in place (`u.Fragment = ""`, `u.RawQuery = ""`) and
returns `strings.ToLower(u.String())`; the mutation is modeled by returning
the updated URL together with the returned key. -/
def NormalizeParsedURL (u : GoURL) : GoURL × List Char :=
  let u' : GoURL := { u with fragment := [], rawQuery := [] }
  (u', lowerStr (urlString u'))

/-- Normalization key returned by `NormalizeParsedURL`. -/
def normalizeKey (u : GoURL) : List Char := (NormalizeParsedURL u).2

/-- Model of `utils.IsDocumentURL` (src/utils/utils.go:21-31): suffix match or
`ext?` / `ext&` substring match on the lowercased URL. -/
def IsDocumentURL (docURL : List Char) (extensions : List (List Char)) : Bool :=
  let lowerURL := lowerStr docURL
  extensions.any (fun ext =>
    ext.isSuffixOf lowerURL || containsSub (ext ++ ['?']) lowerURL ||
      containsSub (ext ++ ['&']) lowerURL)

/-- Characters replaced by `_` in `utils.SanitizeFilename`. -/
def badFileChars : List Char :=
  ['\\', '/', ':', '*', '?', '"', '<', '>', '|', Char.ofNat 0]

/-- Model of Go `path/filepath.Ext`: the suffix starting at the final dot,
empty when the name has no dot.  (After sanitization the name contains no
path separator, so the separator scan of the original is not needed.) -/
def filepathExt (name : List Char) : List Char :=
  if name.contains '.' then '.' :: (splitOnChar '.' name).getLastD []
  else []

/-- Model of `utils.SanitizeFilename` (src/utils/utils.go:60-69).  The Go
code applies `strings.ReplaceAll` once per forbidden character; since the
replacement `_` is not itself forbidden and every pattern is one character,
the sequence of replacements equals a single character map.  The truncation
branch slices `name[:200-len(ext)]` with int arithmetic: when the extension
itself is longer than 200 characters the index is negative and Go panics
(slice bounds out of range), modeled as `none`. -/
def SanitizeFilename (name : List Char) : Option (List Char) :=
  let name := name.map (fun c => if badFileChars.contains c then '_' else c)
  if 200 < name.length then
    let ext := filepathExt name
    if 200 < ext.length then none
    else some (name.take (200 - ext.length) ++ ext)
  else some name

/-- Generated fallback filename `download_<nanoseconds>`. -/
def downloadName (nanos : Nat) : List Char :=
  "download_".toList ++ Nat.toDigits 10 nanos

/-- Model of Go `strings.Trim(s, DQUOTE)`: drop double quotes from both
ends. -/
def trimQuotes (s : List Char) : List Char :=
  ((s.dropWhile (· == '"')).reverse.dropWhile (· == '"')).reverse

/-- Model of `utils.ExtractFilename` (src/utils/utils.go:34-57).  The header
lookup `headers.Get("Content-Disposition")` is modeled by an optional header
value (`none` for the header argument models an absent header, which Go
reports as the empty string); `time.Now().UnixNano()` is modeled by the
explicit `nowNanos` argument.  The result is `none` exactly when the
`SanitizeFilename` call on the chosen name panics; `cdTaken` marks the early
return of the `Content-Disposition` branch with the filename it returns. -/
def ExtractFilename (docURL : List Char) (contentDisposition : Option (List Char))
    (nowNanos : Nat) : Option (List Char) :=
  let attachment := "attachment; filename=".toList
  let cdTaken : Option (List Char) :=
    match contentDisposition with
    | some cd =>
      if cd ≠ [] ∧ attachment.isPrefixOf cd then
        let filename := trimQuotes (cd.drop attachment.length)
        if filename ≠ [] then some filename else none
      else none
    | none => none
  match cdTaken with
  | some filename => SanitizeFilename filename
  | none =>
    let segments := splitOnChar '/' docURL
    let filename := segments.getLastD []
    let filename := filename.takeWhile (· != '?')
    let filename :=
      if filename = [] ∨ ¬ filename.contains '.' then downloadName nowNanos else filename
    SanitizeFilename filename

/-- Last `/`-separated segment of a URL with any `?…` suffix stripped, as
computed by the fallback branch of `ExtractFilename`
(src/utils/utils.go:45-50). -/
def urlSegment (docURL : List Char) : List Char :=
  ((splitOnChar '/' docURL).getLastD []).takeWhile (· != '?')

end Utils

namespace Tokenizer

/-- Model of `tokenizer.PathDecision`. -/
inductive PathDecision
  | FastPath
  | SlowPath
deriving DecidableEq, Repr

/-- Default fast-path size threshold set in `NewCoordinator`
(src/tokenizer/coordinator.go:36). -/
def fastPathSizeLimit : Nat := 100 * 1024

/-- Default slow-path size threshold set in `NewCoordinator`
(src/tokenizer/coordinator.go:37). -/
def slowPathSizeLimit : Nat := 500 * 1024

/-- Keywords forcing the slow path (src/tokenizer/coordinator.go:55-59). -/
def slowKeywords : List (List Char) :=
  ["/document".toList, "/paper".toList, "/publication".toList,
   "/research".toList, "/library".toList]

/-- Keywords forcing the fast path (src/tokenizer/coordinator.go:79-84). -/
def fastKeywords : List (List Char) :=
  ["/sitemap".toList, "/archive".toList, "/category".toList,
   "/tag".toList, "/index".toList, "/list".toList]

/-- Disjunction of `strings.Contains` checks over a keyword list. -/
def hasAnyKeyword (kws : List (List Char)) (s : List Char) : Bool :=
  kws.any (fun kw => containsSub kw s)

/-- Model of `Coordinator.Decide` (src/tokenizer/coordinator.go:42-99).  The
two size limits are the coordinator fields `fastPathSizeLimit` and
`slowPathSizeLimit`; the atomic routing counters are statistics only and are
not modeled. -/
def Decide (fastLimit slowLimit : Nat) (pageURL : GoURL) (bodySize : Nat) : PathDecision :=
  let urlLower := lowerStr (urlString pageURL)
  if slowLimit < bodySize then .SlowPath
  else if hasAnyKeyword slowKeywords urlLower then .SlowPath
  else if pageURL.rawQuery ≠ [] then .SlowPath
  else if bodySize < fastLimit then .FastPath
  else if hasAnyKeyword fastKeywords urlLower then .FastPath
  else if (splitOnChar '/' pageURL.path).length ≤ 3 then .FastPath
  else .SlowPath

/-- Model of `matchesHref` (src/tokenizer/fastpath.go:98-107): at least five
bytes, spelling `href` case-insensitively followed by `=`. -/
def matchesHref : List Char → Bool
  | c0 :: c1 :: c2 :: c3 :: c4 :: _ =>
    (c0 == 'h' || c0 == 'H') && (c1 == 'r' || c1 == 'R') &&
    (c2 == 'e' || c2 == 'E') && (c3 == 'f' || c3 == 'F') && c4 == '='
  | _ => false

/-- Model of `makeAbsolute` (src/tokenizer/fastpath.go:109-127).  `none`
models the Go panic of `baseStr[len(baseStr)-1]` when `base.String()` is
empty. -/
def makeAbsolute (rawURL : List Char) (base : GoURL) : Option (List Char) :=
  if 7 < rawURL.length ∧
      (rawURL.take 7 = "http://".toList ∨ rawURL.take 7 = "https:/".toList) then
    some rawURL
  else if 2 < rawURL.length ∧ rawURL.take 2 = "//".toList then
    some (base.scheme ++ ':' :: rawURL)
  else if rawURL.head? = some '/' then
    some (base.scheme ++ [':', '/', '/'] ++ base.host ++ rawURL)
  else
    let baseStr := urlString base
    match baseStr.getLast? with
    | none => none
    | some c =>
      if c = '/' then some (baseStr ++ rawURL) else some (baseStr ++ '/' :: rawURL)

/-- Filter applied to a captured raw `href` value on the fast path
(src/tokenizer/fastpath.go:70-72): non-empty, not starting with `#`, and not
starting with `javascript:` or `mailto:`. -/
def hrefFilter (rawURL : List Char) : Bool :=
  !rawURL.isEmpty && rawURL.head? != some '#' &&
  !("javascript:".toList.isPrefixOf rawURL) && !("mailto:".toList.isPrefixOf rawURL)

/-- Number of bytes consumed by the inner value scan of `ExtractLinks`
(src/tokenizer/fastpath.go:54-65): up to the closing quote when `quote` is
set, else up to a space or `>`; the whole remainder when no terminator
occurs. -/
def scanLen (quote : Option Char) : List Char → Nat
  | [] => 0
  | c :: rest =>
    match quote with
    | some q => if c = q then 0 else scanLen quote rest + 1
    | none => if c = ' ' ∨ c = '>' then 0 else scanLen quote rest + 1

/-- Model of the scan loop of `ExtractLinks` (src/tokenizer/fastpath.go:40-83)
at index `i` with accumulated output `acc`.  The loop index strictly
increases, so fuel `b.length + 1` can never run out from index `0`;
the `none` result models a Go panic (reachable only through
`makeAbsolute`). -/
def extractLoop (b : List Char) (base : GoURL) : Nat → Nat → List (List Char) →
    Option (List (List Char))
  | 0, _, _ => none
  | fuel + 1, i, acc =>
    if i + 6 < b.length then
      if matchesHref (b.drop i) then
        let j := i + 5
        let qj : Option Char × Nat :=
          match b[j]? with
          | some c => if c = '"' ∨ c = '\'' then (some c, j + 1) else (none, j)
          | none => (none, j)
        let urlStart := qj.2
        let e := urlStart + scanLen qj.1 (b.drop urlStart)
        if urlStart < e then
          let rawURL := (b.drop urlStart).take (e - urlStart)
          if hrefFilter rawURL then
            match makeAbsolute rawURL base with
            | none => none
            | some absURL =>
              if absURL = [] then extractLoop b base fuel (e + 1) acc
              else extractLoop b base fuel (e + 1) (acc ++ [absURL])
          else extractLoop b base fuel (e + 1) acc
        else extractLoop b base fuel (e + 1) acc
      else extractLoop b base fuel (i + 1) acc
    else some acc

/-- Model of `FastPathTokenizer.ExtractLinks` (src/tokenizer/fastpath.go:33-96),
returning the ordered URL list (timing and atomic statistics are not
modeled). -/
def ExtractLinks (b : List Char) (base : GoURL) : Option (List (List Char)) :=
  extractLoop b base (b.length + 1) 0 []

/-- Model of `tokenizer.DocumentInfo` (src/unnamed/part_000:35-40). -/
structure DocumentInfo where
  url : List Char
  extension : List Char
  title : List Char
  context : List Char
deriving DecidableEq, Repr

/-- Model of `isDocument` (src/unnamed/part_000:135-143): some configured
extension is a suffix of the lowercased URL. -/
def isDocument (urlStr : List Char) (extensions : List (List Char)) : Bool :=
  let urlLower := lowerStr urlStr
  extensions.any (fun ext => ext.isSuffixOf urlLower)

/-- Model of `getExtension` (src/unnamed/part_000:146-157): last `.`-separated
token, truncated at the first `?`, prefixed with a dot; empty when the URL
contains no dot. -/
def getExtension (urlStr : List Char) : List Char :=
  let parts := splitOnChar '.' urlStr
  if 1 < parts.length then
    let ext := parts.getLastD []
    let ext := ext.takeWhile (· != '?')
    '.' :: ext
  else []

/-- An anchor element as seen by the slow path's DOM walk: its `href`
attribute, its text, and its parent element's text.  The goquery DOM parse
that produces these is an external library and is modeled by taking the
anchor list as input. -/
structure Anchor where
  href : List Char
  text : List Char
  parentText : List Char
deriving DecidableEq, Repr

/-- Skip condition of the slow path's per-anchor handler
(src/unnamed/part_000:84-91): empty href, href exactly `#`, or a
`javascript:` / `mailto:` prefix. -/
def slowSkip (href : List Char) : Bool :=
  href.isEmpty || href == ['#'] ||
  "javascript:".toList.isPrefixOf href || "mailto:".toList.isPrefixOf href

/-- Model of the net/url path merge in `resolvePath`, restricted to
references without `.` or `..` segments (no dot-segment removal is needed
for those): an empty reference keeps the base path, an absolute reference
replaces it, and a relative reference replaces the base path's last
segment. -/
def resolvePathModel (base ref : List Char) : List Char :=
  let full :=
    if ref = [] then base
    else if ref.head? = some '/' then ref
    else (base.reverse.dropWhile (· != '/')).reverse ++ ref
  if full = [] then []
  else if full.head? = some '/' then full else '/' :: full

/-- Model of `(base *url.URL).Parse(href)` — `url.Parse` followed by
`ResolveReference` — restricted to the modeled URL subset: a reference with
its own scheme or host is taken as is (inheriting the base scheme when
absent), a reference with empty path and query is a same-document reference
keeping the base path and query, and any other reference keeps the base
scheme and host and merges paths.  Parse errors are outside the model (the
model parser is total), so the result is always `some`; the `Option` mirrors
the error branch of the source. -/
def resolveRef (base : GoURL) (href : List Char) : Option (List Char) :=
  let r := parseURL href
  if r.scheme ≠ [] ∨ r.host ≠ [] then
    let scheme := if r.scheme = [] then base.scheme else r.scheme
    some (urlString { r with scheme := scheme, path := resolvePathModel r.path [] })
  else
    let sameDoc := r.path = [] ∧ r.rawQuery = []
    let query := if sameDoc then base.rawQuery else r.rawQuery
    let frag := if sameDoc ∧ r.fragment = [] then base.fragment else r.fragment
    some (urlString ⟨base.scheme, base.host, resolvePathModel base.path r.path, query, frag⟩)

/-- Model of `getContext` (src/unnamed/part_000:160-171) applied to the
parent element's text: truncate to 200 characters with an ellipsis, then trim
surrounding ASCII whitespace (`strings.TrimSpace` restricted to ASCII). -/
def getContext (parentText : List Char) : List Char :=
  let text :=
    if 200 < parentText.length then parentText.take 200 ++ "...".toList else parentText
  let ws : Char → Bool := fun c => c == ' ' || c == '\t' || c == '\n' || c == '\r'
  ((text.dropWhile ws).reverse.dropWhile ws).reverse

/-- Body of the `doc.Find("a[href]").Each` callback of `AnalyzeDocument`
(src/unnamed/part_000:82-114) acting on one anchor: skip, resolve, append the
URL, and append a `DocumentInfo` when `isDocument` holds. -/
def processAnchor (base : GoURL) (docExtensions : List (List Char))
    (acc : List (List Char) × List DocumentInfo) (a : Anchor) :
    List (List Char) × List DocumentInfo :=
  if slowSkip a.href then acc
  else
    match resolveRef base a.href with
    | none => acc
    | some urlStr =>
      let urls := acc.1 ++ [urlStr]
      if isDocument urlStr docExtensions then
        (urls, acc.2 ++ [⟨urlStr, getExtension urlStr, a.text, getContext a.parentText⟩])
      else (urls, acc.2)

/-- Model of the link-and-document extraction stage of
`SlowPathTokenizer.AnalyzeDocument` (src/unnamed/part_000:57-132): the DOM
walk over all anchors in document order.  Page metadata, latency and atomic
statistics are not modeled. -/
def AnalyzeDocumentLinks (base : GoURL) (anchors : List Anchor)
    (docExtensions : List (List Char)) : List (List Char) × List DocumentInfo :=
  anchors.foldl (processAnchor base docExtensions) ([], [])

/-- Document-URL predicate following the spec's words (spec.md §4.1 and
glossary): the lowercased URL ends with a listed extension, or contains the
extension in extension-then-query form (`ext?` or `ext&`), so that
`.pdf?x=1` still classifies. -/
def isDocumentURLSpec (urlStr : List Char) (extensions : List (List Char)) : Bool :=
  let urlLower := lowerStr urlStr
  extensions.any (fun ext =>
    ext.isSuffixOf urlLower || containsSub (ext ++ ['?']) urlLower ||
      containsSub (ext ++ ['&']) urlLower)

end Tokenizer

namespace Crawler

/-- Model of `config.MaxDepth` (src/config/config.go:7). -/
def MaxDepth : Nat := 13

/-- A fetch scheduled by the orchestrator: the request URL and the depth
stored in the request context (`newCtx.Put("depth", currentDepth+1)`). -/
structure Sched where
  url : List Char
  depth : Nat
deriving DecidableEq, Repr

/-- Model of `CrawlerTwoTier.processDiscoveredURL` (src/unnamed/part_003:424-441):
parse the URL, drop it when the host is empty, normalize, and — when the
current depth is below `MaxDepth` and the key is unvisited — record the key
and schedule a fetch at depth `currentDepth + 1`.  The visited map is modeled
as a list of keys; the asynchronous visit-log write is not modeled. -/
def processDiscoveredURL (visited : List (List Char)) (urlStr : List Char)
    (currentDepth : Nat) : Option Sched × List (List Char) :=
  let parsed := parseURL urlStr
  if parsed.host = [] then (none, visited)
  else
    let cleanURL := (Utils.NormalizeParsedURL parsed).2
    if currentDepth < MaxDepth then
      if visited.contains cleanURL then (none, visited)
      else (some ⟨urlStr, currentDepth + 1⟩, cleanURL :: visited)
    else (none, visited)

end Crawler

/-! ### Character and list lemmas -/

theorem lowerChar_toNat_of_upper {c : Char} (h1 : 65 ≤ c.toNat) (h2 : c.toNat ≤ 90) :
    (lowerChar c).toNat = c.toNat + 32 := by
  unfold lowerChar
  rw [if_pos ⟨h1, h2⟩]
  have hv : (c.toNat + 32).isValidChar := Or.inl (by omega)
  rw [Char.ofNat, dif_pos hv]
  rfl

theorem lowerChar_of_not_upper {c : Char} (h : ¬ (65 ≤ c.toNat ∧ c.toNat ≤ 90)) :
    lowerChar c = c := by
  unfold lowerChar
  rw [if_neg h]

theorem lowerChar_eq_low {c d : Char} (hd : d.toNat < 97) (h : lowerChar c = d) : c = d := by
  by_cases hup : 65 ≤ c.toNat ∧ c.toNat ≤ 90
  · have hn := lowerChar_toNat_of_upper hup.1 hup.2
    rw [h] at hn
    omega
  · rw [← h, lowerChar_of_not_upper hup]

theorem lowerChar_idem (c : Char) : lowerChar (lowerChar c) = lowerChar c := by
  by_cases hup : 65 ≤ c.toNat ∧ c.toNat ≤ 90
  · have h1 := lowerChar_toNat_of_upper hup.1 hup.2
    exact lowerChar_of_not_upper (by omega)
  · rw [lowerChar_of_not_upper hup, lowerChar_of_not_upper hup]

theorem lowerStr_append (a b : List Char) : lowerStr (a ++ b) = lowerStr a ++ lowerStr b :=
  List.map_append lowerChar a b

theorem lowerStr_idem (s : List Char) : lowerStr (lowerStr s) = lowerStr s := by
  unfold lowerStr
  rw [List.map_map]
  exact List.map_congr_left fun a _ => lowerChar_idem a

theorem not_mem_lowerStr {d : Char} (hd : d.toNat < 97) {s : List Char} (h : d ∉ s) :
    d ∉ lowerStr s := by
  intro hmem
  obtain ⟨c, hc, hcd⟩ := List.mem_map.mp hmem
  exact h (lowerChar_eq_low hd hcd ▸ hc)

theorem lowerStr_ne_nil {s : List Char} (h : s ≠ []) : lowerStr s ≠ [] := by
  simpa [lowerStr] using h

theorem breakAt_not_mem {c : Char} {l : List Char} (h : c ∉ l) : breakAt c l = (l, []) := by
  have hp : ∀ x ∈ l, (x != c) = true := by
    intro x hx
    simp only [bne_iff_ne, ne_eq]
    exact fun hxc => h (hxc ▸ hx)
  unfold breakAt
  rw [List.takeWhile_eq_self_iff.mpr hp, List.dropWhile_eq_nil_iff.mpr hp]

theorem breakAt_append {c : Char} {a b : List Char} (h : c ∉ a) :
    breakAt c (a ++ c :: b) = (a, c :: b) := by
  have hp : ∀ x ∈ a, (x != c) = true := by
    intro x hx
    simp only [bne_iff_ne, ne_eq]
    exact fun hxc => h (hxc ▸ hx)
  unfold breakAt
  rw [List.takeWhile_append_of_pos hp, List.dropWhile_append_of_pos hp]
  simp

/-! ### C9: NormalizeParsedURL mutates its argument -/

/-- C9: after `NormalizeParsedURL`, the URL value passed in has its `Fragment`
and `RawQuery` fields cleared to the empty string, while all other fields are
left unchanged. -/
theorem normalizeParsedURL_frame (u : GoURL) :
    (Utils.NormalizeParsedURL u).1.fragment = [] ∧
    (Utils.NormalizeParsedURL u).1.rawQuery = [] ∧
    (Utils.NormalizeParsedURL u).1.scheme = u.scheme ∧
    (Utils.NormalizeParsedURL u).1.host = u.host ∧
    (Utils.NormalizeParsedURL u).1.path = u.path :=
  ⟨rfl, rfl, rfl, rfl, rfl⟩

/-! ### C2: depth cap in processDiscoveredURL -/

/-- C2: a discovered link processed at depth `d` is scheduled only when
`d + 1 ≤ MaxDepth`, and the scheduled request carries depth `d + 1`. -/
theorem processDiscoveredURL_depth_cap (visited : List (List Char)) (urlStr : List Char)
    (d : Nat) (s : Crawler.Sched) (visited' : List (List Char))
    (h : Crawler.processDiscoveredURL visited urlStr d = (some s, visited')) :
    d + 1 ≤ Crawler.MaxDepth ∧ s.depth = d + 1 := by
  simp only [Crawler.processDiscoveredURL] at h
  by_cases h1 : (parseURL urlStr).host = []
  · simp [h1] at h
  · by_cases h2 : d < Crawler.MaxDepth
    · by_cases h3 : (Utils.NormalizeParsedURL (parseURL urlStr)).2 ∈ visited
      · simp [h1, h2, h3] at h
      · simp [h1, h2, h3] at h
        constructor
        · omega
        · rw [← h.1]
    · simp [h1, h2] at h

/-- Witness for C2 at a concrete input: the link `http://a/b` discovered at
depth 0 is scheduled with depth 1. -/
theorem processDiscoveredURL_depth_cap_witness :
    0 + 1 ≤ Crawler.MaxDepth ∧ (Crawler.Sched.mk "http://a/b".toList 1).depth = 0 + 1 :=
  processDiscoveredURL_depth_cap [] "http://a/b".toList 0
    ⟨"http://a/b".toList, 1⟩ ["http://a/b".toList] (by decide)

/-! ### C3: routing of large bodies -/

/-- C3 counterexample: at body size exactly `slowPathSizeLimit` (500 KB =
512000 bytes), a page whose URL matches a fast-path keyword is routed fast,
so "size ≥ SlowPathSizeLimit always routes slow" is false; rule S1 fires only
on strictly greater sizes. -/
theorem decide_at_slow_limit_goes_fast :
    Tokenizer.Decide Tokenizer.fastPathSizeLimit Tokenizer.slowPathSizeLimit
        ⟨"http".toList, "a".toList, "/sitemap".toList, [], []⟩ (500 * 1024) =
      Tokenizer.PathDecision.FastPath ∧
    Tokenizer.slowPathSizeLimit ≤ 500 * 1024 := by
  constructor
  · rfl
  · decide

/-- C3 amended: for every body size strictly greater than the slow-path size
limit, `Decide` routes slow regardless of the URL. -/
theorem decide_large_body_slow (fastLimit slowLimit : Nat) (u : GoURL) (bodySize : Nat)
    (h : slowLimit < bodySize) :
    Tokenizer.Decide fastLimit slowLimit u bodySize = Tokenizer.PathDecision.SlowPath := by
  unfold Tokenizer.Decide
  rw [if_pos h]

/-- Witness for C3 amended: one byte over the default limit routes slow even
on a fast-keyword URL. -/
theorem decide_large_body_slow_witness :
    Tokenizer.Decide Tokenizer.fastPathSizeLimit Tokenizer.slowPathSizeLimit
        ⟨"http".toList, "a".toList, "/sitemap".toList, [], []⟩ (500 * 1024 + 1) =
      Tokenizer.PathDecision.SlowPath :=
  decide_large_body_slow _ _ _ _ (by decide)

/-! ### C4: keyword rules examine the whole URL string, not only the path -/

/-- C4 counterexample: two page URLs with identical path, query and body size
but different hosts receive different routing decisions, because the keyword
rules of `Decide` scan the whole lowercased serialized URL (the host
`documents.com` contains `/document` once serialized after `//`), so keyword
occurrences outside the path do affect routing. -/
theorem decide_host_keyword_changes_routing :
    (⟨"http".toList, "documents.com".toList, "/aaa".toList, [], []⟩ : GoURL).path =
      (⟨"http".toList, "example.com".toList, "/aaa".toList, [], []⟩ : GoURL).path ∧
    (⟨"http".toList, "documents.com".toList, "/aaa".toList, [], []⟩ : GoURL).rawQuery =
      (⟨"http".toList, "example.com".toList, "/aaa".toList, [], []⟩ : GoURL).rawQuery ∧
    Tokenizer.Decide Tokenizer.fastPathSizeLimit Tokenizer.slowPathSizeLimit
        ⟨"http".toList, "documents.com".toList, "/aaa".toList, [], []⟩ (200 * 1024) =
      Tokenizer.PathDecision.SlowPath ∧
    Tokenizer.Decide Tokenizer.fastPathSizeLimit Tokenizer.slowPathSizeLimit
        ⟨"http".toList, "example.com".toList, "/aaa".toList, [], []⟩ (200 * 1024) =
      Tokenizer.PathDecision.FastPath :=
  ⟨rfl, rfl, rfl, rfl⟩

/-- C4 amended: the keyword conditions of rules S2 and F2 examine the whole
lowercased serialized URL: a slow keyword anywhere in it routes slow once S1
does not fire, and a fast keyword anywhere in it routes fast once S1, S2, S3
and F1 do not fire. -/
theorem decide_keywords_whole_url (fastLimit slowLimit : Nat) (u : GoURL) (bodySize : Nat) :
    (¬ slowLimit < bodySize →
      Tokenizer.hasAnyKeyword Tokenizer.slowKeywords (lowerStr (urlString u)) = true →
      Tokenizer.Decide fastLimit slowLimit u bodySize = Tokenizer.PathDecision.SlowPath) ∧
    (¬ slowLimit < bodySize →
      Tokenizer.hasAnyKeyword Tokenizer.slowKeywords (lowerStr (urlString u)) = false →
      u.rawQuery = [] → ¬ bodySize < fastLimit →
      Tokenizer.hasAnyKeyword Tokenizer.fastKeywords (lowerStr (urlString u)) = true →
      Tokenizer.Decide fastLimit slowLimit u bodySize = Tokenizer.PathDecision.FastPath) := by
  constructor
  · intro h1 h2
    unfold Tokenizer.Decide
    rw [if_neg h1, if_pos h2]
  · intro h1 h2 h3 h4 h5
    unfold Tokenizer.Decide
    rw [if_neg h1, if_neg (by simp [h2]), if_neg (by simp [h3]), if_neg h4, if_pos h5]

/-- Witness for C4 amended at concrete inputs: the slow keyword in the host
of `http://documents.com/aaa` routes slow, and the fast keyword in
`http://a/sitemap` routes fast at 200 KB. -/
theorem decide_keywords_whole_url_witness :
    Tokenizer.Decide Tokenizer.fastPathSizeLimit Tokenizer.slowPathSizeLimit
        ⟨"http".toList, "documents.com".toList, "/aaa".toList, [], []⟩ (200 * 1024) =
      Tokenizer.PathDecision.SlowPath ∧
    Tokenizer.Decide Tokenizer.fastPathSizeLimit Tokenizer.slowPathSizeLimit
        ⟨"http".toList, "a".toList, "/sitemap/a/b/c".toList, [], []⟩ (200 * 1024) =
      Tokenizer.PathDecision.FastPath :=
  ⟨(decide_keywords_whole_url _ _ _ _).1 (by decide) (by decide),
   (decide_keywords_whole_url _ _ _ _).2 (by decide) (by decide) rfl (by decide) (by decide)⟩

/-! ### C8: filename extraction -/

/-- C8 counterexample: with the `Content-Disposition` header present (value
`inline`) and a non-empty URL segment `report`, `ExtractFilename` returns the
generated `download_<nanoseconds>` name — so neither "returns the header
filename when the header is present" nor "generates only when the segment is
empty" holds as stated: the header must have the attachment form, and a
dotless segment also triggers generation. -/
theorem extractFilename_counterexample :
    Utils.ExtractFilename "http://x/report".toList (some "inline".toList) 7 =
      some "download_7".toList ∧
    Utils.urlSegment "http://x/report".toList = "report".toList ∧
    "report".toList ≠ [] := by decide

/-- C8 amended: `ExtractFilename` returns the sanitized quote-trimmed
`Content-Disposition` filename when the header value has the
`attachment; filename=` form with a non-empty name; otherwise it returns the
sanitized last `/`-segment of the URL (stripped of any `?…` suffix) when that
segment is non-empty and contains a dot, and the sanitized generated
`download_<nanoseconds>` name exactly when that segment is empty or contains
no dot.  In each case the result is the sanitization of that name, which
itself panics (`none`) when the name keeps an extension longer than 200
characters. -/
theorem extractFilename_characterization (docURL : List Char) (cd : Option (List Char))
    (now : Nat) :
    (∀ v, cd = some v → ("attachment; filename=".toList).isPrefixOf v = true →
      Utils.trimQuotes (v.drop ("attachment; filename=".toList).length) ≠ [] →
      Utils.ExtractFilename docURL cd now =
        Utils.SanitizeFilename
          (Utils.trimQuotes (v.drop ("attachment; filename=".toList).length))) ∧
    ((∀ v, cd = some v → ("attachment; filename=".toList).isPrefixOf v = true →
        Utils.trimQuotes (v.drop ("attachment; filename=".toList).length) = []) →
      Utils.ExtractFilename docURL cd now =
        if Utils.urlSegment docURL = [] ∨ ¬ (Utils.urlSegment docURL).contains '.' then
          Utils.SanitizeFilename (Utils.downloadName now)
        else Utils.SanitizeFilename (Utils.urlSegment docURL)) := by
  constructor
  · intro v hv hpre htrim
    subst hv
    have hvne : v ≠ [] := by
      intro he
      subst he
      simp [List.isPrefixOf_iff_prefix] at hpre
    simp only [Utils.ExtractFilename, if_pos (And.intro hvne hpre), if_pos htrim]
  · intro hfall
    cases cd with
    | none =>
      simp only [Utils.ExtractFilename, Utils.urlSegment]
      rw [apply_ite Utils.SanitizeFilename]
    | some v =>
      by_cases hp : v ≠ [] ∧ ("attachment; filename=".toList).isPrefixOf v
      · have h0 := hfall v rfl hp.2
        simp only [Utils.ExtractFilename, if_pos hp, h0, Utils.urlSegment, ne_eq,
          not_true_eq_false, if_false]
        rw [apply_ite Utils.SanitizeFilename]
      · simp only [Utils.ExtractFilename, if_neg hp, Utils.urlSegment]
        rw [apply_ite Utils.SanitizeFilename]

/-- Witness for C8 amended at concrete inputs: an attachment header yields its
sanitized filename, and a dotless segment yields the generated name. -/
theorem extractFilename_characterization_witness :
    Utils.ExtractFilename "http://x/a.pdf".toList
        (some "attachment; filename=\"b c.pdf\"".toList) 7 =
      Utils.SanitizeFilename "b c.pdf".toList ∧
    Utils.ExtractFilename "http://x/report".toList none 7 =
      Utils.SanitizeFilename (Utils.downloadName 7) :=
  ⟨by
    have h := (extractFilename_characterization "http://x/a.pdf".toList
      (some "attachment; filename=\"b c.pdf\"".toList) 7).1
      "attachment; filename=\"b c.pdf\"".toList rfl (by decide) (by decide)
    rw [h]
    decide,
   by
    have h := (extractFilename_characterization "http://x/report".toList none 7).2
      (fun v hv => by cases hv)
    rw [h]
    decide⟩

/-! ### C1: document records on the slow path -/

/-- Step lemma for the slow path's anchor fold: processing one anchor
preserves the record invariant (records are exactly the suffix-classified
URLs, with the computed extension). -/
theorem processAnchor_inv (base : GoURL) (exts : List (List Char))
    (acc : List (List Char) × List Tokenizer.DocumentInfo) (a : Tokenizer.Anchor)
    (h1 : ∀ u ∈ acc.1, ((∃ d ∈ acc.2, Tokenizer.DocumentInfo.url d = u) ↔
      Tokenizer.isDocument u exts = true))
    (h2 : ∀ d ∈ acc.2, Tokenizer.isDocument d.url exts = true ∧
      d.extension = Tokenizer.getExtension d.url ∧ d.url ∈ acc.1) :
    (∀ u ∈ (Tokenizer.processAnchor base exts acc a).1,
      ((∃ d ∈ (Tokenizer.processAnchor base exts acc a).2,
        Tokenizer.DocumentInfo.url d = u) ↔ Tokenizer.isDocument u exts = true)) ∧
    (∀ d ∈ (Tokenizer.processAnchor base exts acc a).2,
      Tokenizer.isDocument d.url exts = true ∧
      d.extension = Tokenizer.getExtension d.url ∧
      d.url ∈ (Tokenizer.processAnchor base exts acc a).1) := by
  unfold Tokenizer.processAnchor
  by_cases hs : Tokenizer.slowSkip a.href
  · simp only [hs, if_true]
    exact ⟨h1, h2⟩
  · simp only [hs, if_false, Bool.false_eq_true]
    cases hr : Tokenizer.resolveRef base a.href with
    | none => exact ⟨h1, h2⟩
    | some urlStr =>
      by_cases hd : Tokenizer.isDocument urlStr exts = true
      · simp only [hd, if_true]
        constructor
        · intro u hu
          rcases List.mem_append.mp hu with hu' | hu'
          · constructor
            · rintro ⟨d, hdm, hdu⟩
              rcases List.mem_append.mp hdm with hdm' | hdm'
              · exact (h1 u hu').mp ⟨d, hdm', hdu⟩
              · rw [List.mem_singleton] at hdm'
                subst hdm'
                simp only at hdu
                rw [← hdu]
                exact hd
            · intro hdoc
              obtain ⟨d, hdm, hdu⟩ := (h1 u hu').mpr hdoc
              exact ⟨d, List.mem_append_left _ hdm, hdu⟩
          · rw [List.mem_singleton] at hu'
            subst hu'
            constructor
            · intro _
              exact hd
            · intro _
              refine ⟨_, List.mem_append_right _ (List.mem_singleton.mpr rfl), rfl⟩
        · intro d hdm
          rcases List.mem_append.mp hdm with hdm' | hdm'
          · obtain ⟨g1, g2, g3⟩ := h2 d hdm'
            exact ⟨g1, g2, List.mem_append_left _ g3⟩
          · rw [List.mem_singleton] at hdm'
            subst hdm'
            exact ⟨hd, rfl, List.mem_append_right _ (List.mem_singleton.mpr rfl)⟩
      · simp only [hd, if_false]
        constructor
        · intro u hu
          rcases List.mem_append.mp hu with hu' | hu'
          · exact h1 u hu'
          · rw [List.mem_singleton] at hu'
            subst hu'
            constructor
            · rintro ⟨d, hdm, hdu⟩
              obtain ⟨g1, _, _⟩ := h2 d hdm
              rw [hdu] at g1
              exact g1
            · intro hdoc
              exact absurd hdoc hd
        · intro d hdm
          obtain ⟨g1, g2, g3⟩ := h2 d hdm
          exact ⟨g1, g2, List.mem_append_left _ g3⟩

/-- Fold lemma: the record invariant holds for the whole anchor fold from any
accumulator satisfying it. -/
theorem foldl_processAnchor_inv (base : GoURL) (exts : List (List Char)) :
    ∀ (anchors : List Tokenizer.Anchor)
      (acc : List (List Char) × List Tokenizer.DocumentInfo),
      (∀ u ∈ acc.1, ((∃ d ∈ acc.2, Tokenizer.DocumentInfo.url d = u) ↔
        Tokenizer.isDocument u exts = true)) →
      (∀ d ∈ acc.2, Tokenizer.isDocument d.url exts = true ∧
        d.extension = Tokenizer.getExtension d.url ∧ d.url ∈ acc.1) →
      (∀ u ∈ (anchors.foldl (Tokenizer.processAnchor base exts) acc).1,
        ((∃ d ∈ (anchors.foldl (Tokenizer.processAnchor base exts) acc).2,
          Tokenizer.DocumentInfo.url d = u) ↔ Tokenizer.isDocument u exts = true)) ∧
      (∀ d ∈ (anchors.foldl (Tokenizer.processAnchor base exts) acc).2,
        Tokenizer.isDocument d.url exts = true ∧
        d.extension = Tokenizer.getExtension d.url ∧
        d.url ∈ (anchors.foldl (Tokenizer.processAnchor base exts) acc).1) := by
  intro anchors
  induction anchors with
  | nil =>
    intro acc h1 h2
    exact ⟨h1, h2⟩
  | cons a as ih =>
    intro acc h1 h2
    rw [List.foldl_cons]
    obtain ⟨g1, g2⟩ := processAnchor_inv base exts acc a h1 h2
    exact ih _ g1 g2

/-- C1 counterexample: the URL `http://x/a.pdf?y=1` is an extracted absolute
URL and a document URL with respect to `{.pdf}` per the spec's
extension-then-query rule, yet the slow path emits no `DocumentRecord` for
it, because `isDocument` only tests extension suffixes. -/
theorem analyzeDocument_query_form_unclassified :
    (Tokenizer.AnalyzeDocumentLinks ⟨"http".toList, "ex.com".toList, "/p".toList, [], []⟩
        [⟨"http://x/a.pdf?y=1".toList, "t".toList, "pp".toList⟩] [".pdf".toList]).1 =
      ["http://x/a.pdf?y=1".toList] ∧
    (Tokenizer.AnalyzeDocumentLinks ⟨"http".toList, "ex.com".toList, "/p".toList, [], []⟩
        [⟨"http://x/a.pdf?y=1".toList, "t".toList, "pp".toList⟩] [".pdf".toList]).2 = [] ∧
    Tokenizer.isDocumentURLSpec "http://x/a.pdf?y=1".toList [".pdf".toList] = true := by
  decide

/-- C1 amended: the slow path emits a `DocumentRecord` for an extracted
absolute URL if and only if the lowercased URL ends with a configured
extension (extension-then-query forms such as `.pdf?x=1` are not
classified), and each record's extension is the URL's last `.`-separated
token stripped of any query suffix (with a leading dot). -/
theorem analyzeDocument_records_iff_suffix (base : GoURL)
    (anchors : List Tokenizer.Anchor) (exts : List (List Char)) :
    (∀ u ∈ (Tokenizer.AnalyzeDocumentLinks base anchors exts).1,
      ((∃ d ∈ (Tokenizer.AnalyzeDocumentLinks base anchors exts).2,
        Tokenizer.DocumentInfo.url d = u) ↔ Tokenizer.isDocument u exts = true)) ∧
    (∀ d ∈ (Tokenizer.AnalyzeDocumentLinks base anchors exts).2,
      Tokenizer.isDocument d.url exts = true ∧
      d.extension = Tokenizer.getExtension d.url ∧
      d.url ∈ (Tokenizer.AnalyzeDocumentLinks base anchors exts).1) := by
  unfold Tokenizer.AnalyzeDocumentLinks
  exact foldl_processAnchor_inv base exts anchors ([], []) (by simp) (by simp)

/-- Witness for C1 amended at a concrete input: the anchor to
`http://x/a.pdf` produces a record with extension `.pdf`. -/
theorem analyzeDocument_records_iff_suffix_witness :
    Tokenizer.isDocument "http://x/a.pdf".toList [".pdf".toList] = true ∧
    (Tokenizer.DocumentInfo.mk "http://x/a.pdf".toList ".pdf".toList "t".toList
        "pp".toList).extension =
      Tokenizer.getExtension "http://x/a.pdf".toList := by
  have h := (analyzeDocument_records_iff_suffix
    ⟨"http".toList, "ex.com".toList, "/p".toList, [], []⟩
    [⟨"http://x/a.pdf".toList, "t".toList, "pp".toList⟩] [".pdf".toList]).2
    ⟨"http://x/a.pdf".toList, ".pdf".toList, "t".toList, "pp".toList⟩ (by decide)
  exact ⟨h.1, h.2.1⟩

/-! ### C5: href filtering on both paths -/

/-- Anchors whose href satisfies the slow path's skip condition contribute
nothing to the slow path's output. -/
theorem analyzeDocument_skip_inv (base : GoURL) (exts : List (List Char))
    (l1 l2 : List Tokenizer.Anchor) (a : Tokenizer.Anchor)
    (h : Tokenizer.slowSkip a.href = true) :
    Tokenizer.AnalyzeDocumentLinks base (l1 ++ a :: l2) exts =
      Tokenizer.AnalyzeDocumentLinks base (l1 ++ l2) exts := by
  unfold Tokenizer.AnalyzeDocumentLinks
  rw [List.foldl_append, List.foldl_append, List.foldl_cons]
  have hstep : Tokenizer.processAnchor base exts
      (l1.foldl (Tokenizer.processAnchor base exts) ([], [])) a =
      l1.foldl (Tokenizer.processAnchor base exts) ([], []) := by
    unfold Tokenizer.processAnchor
    rw [if_pos h]
  rw [hstep]

/-- Every URL output by the fast-path loop either was already accumulated or
arises from a raw href value that passed `hrefFilter`. -/
theorem extractLoop_sources (b : List Char) (base : GoURL) :
    ∀ (fuel i : Nat) (acc urls : List (List Char)),
      Tokenizer.extractLoop b base fuel i acc = some urls →
      ∀ u ∈ urls, u ∈ acc ∨ ∃ raw, Tokenizer.hrefFilter raw = true ∧
        Tokenizer.makeAbsolute raw base = some u := by
  intro fuel
  induction fuel with
  | zero =>
    intro i acc urls h
    exact absurd h (by simp [Tokenizer.extractLoop])
  | succ n ih =>
    intro i acc urls h
    rw [Tokenizer.extractLoop] at h
    by_cases hc : i + 6 < b.length
    · rw [if_pos hc] at h
      by_cases hm : Tokenizer.matchesHref (b.drop i) = true
      · rw [if_pos hm] at h
        simp only at h
        set qj : Option Char × Nat :=
          match b[i + 5]? with
          | some c => if c = '"' ∨ c = '\'' then (some c, i + 5 + 1) else (none, i + 5)
          | none => (none, i + 5) with hqj
        set urlStart := qj.2 with hus
        set e := urlStart + Tokenizer.scanLen qj.1 (b.drop urlStart) with he
        by_cases hlt : urlStart < e
        · rw [if_pos hlt] at h
          by_cases hf : Tokenizer.hrefFilter ((b.drop urlStart).take (e - urlStart)) = true
          · rw [if_pos hf] at h
            cases hma : Tokenizer.makeAbsolute ((b.drop urlStart).take (e - urlStart)) base with
            | none => rw [hma] at h; cases h
            | some absURL =>
              rw [hma] at h
              dsimp only at h
              by_cases habs : absURL = []
              · rw [if_pos habs] at h
                exact ih _ _ _ h
              · rw [if_neg habs] at h
                intro u hu
                rcases ih _ _ _ h u hu with hacc | hraw
                · rcases List.mem_append.mp hacc with hacc' | hacc'
                  · exact Or.inl hacc'
                  · rw [List.mem_singleton] at hacc'
                    subst hacc'
                    exact Or.inr ⟨_, hf, hma⟩
                · exact Or.inr hraw
          · rw [if_neg hf] at h
            exact ih _ _ _ h
        · rw [if_neg hlt] at h
          exact ih _ _ _ h
      · rw [if_neg hm] at h
        exact ih _ _ _ h
    · rw [if_neg hc] at h
      intro u hu
      rw [← Option.some.inj h] at hu
      exact Or.inl hu

/-- C5 counterexample: the slow path keeps an anchor whose href is `#x` (its
skip test compares against exactly `#`): the resolved same-document URL
appears in the output list, so "both paths drop hrefs beginning with `#`" is
false for the slow path. -/
theorem slowPath_keeps_fragment_href :
    ("#x".toList).head? = some '#' ∧
    (Tokenizer.AnalyzeDocumentLinks ⟨"http".toList, "ex.com".toList, "/p".toList, [], []⟩
        [⟨"#x".toList, "t".toList, "pp".toList⟩] [".pdf".toList]).1 =
      ["http://ex.com/p#x".toList] := by
  decide

/-- C5 amended: the fast path drops every href value that is empty, begins
with `#`, or begins with `javascript:` or `mailto:` (every output URL comes
from a raw value that is none of these); the slow path drops anchors whose
href is empty, exactly `#`, or begins with `javascript:` or `mailto:` (such
anchors contribute nothing to its output), but resolves and keeps other
fragment hrefs such as `#x`. -/
theorem tokenizer_paths_drop_hrefs :
    (∀ (b : List Char) (base : GoURL) (urls : List (List Char)),
      Tokenizer.ExtractLinks b base = some urls → ∀ u ∈ urls,
        ∃ raw, raw ≠ [] ∧ raw.head? ≠ some '#' ∧
          ("javascript:".toList).isPrefixOf raw = false ∧
          ("mailto:".toList).isPrefixOf raw = false ∧
          Tokenizer.makeAbsolute raw base = some u) ∧
    (∀ (base : GoURL) (exts : List (List Char)) (l1 l2 : List Tokenizer.Anchor)
        (a : Tokenizer.Anchor),
      (a.href = [] ∨ a.href = ['#'] ∨ ("javascript:".toList).isPrefixOf a.href = true ∨
        ("mailto:".toList).isPrefixOf a.href = true) →
      Tokenizer.AnalyzeDocumentLinks base (l1 ++ a :: l2) exts =
        Tokenizer.AnalyzeDocumentLinks base (l1 ++ l2) exts) := by
  constructor
  · intro b base urls h u hu
    rcases extractLoop_sources b base (b.length + 1) 0 [] urls h u hu with hacc | ⟨raw, hf, hma⟩
    · cases hacc
    · simp only [Tokenizer.hrefFilter, Bool.and_eq_true, Bool.not_eq_true',
        bne_iff_ne, ne_eq] at hf
      obtain ⟨⟨⟨h1, h2⟩, h3⟩, h4⟩ := hf
      refine ⟨raw, ?_, h2, h3, h4, hma⟩
      intro hraw
      subst hraw
      simp at h1
  · intro base exts l1 l2 a ha
    apply analyzeDocument_skip_inv
    rcases ha with h | h | h | h
    · simp [Tokenizer.slowSkip, h]
    · simp [Tokenizer.slowSkip, h]
    · simp only [Tokenizer.slowSkip, h, Bool.true_or, Bool.or_true]
    · simp only [Tokenizer.slowSkip, h, Bool.true_or, Bool.or_true]

/-! ### C10: href occurrences in the last six bytes are never scanned -/

/-- Loop lemma: when no index below `len − 6` matches `href=`, the scan adds
nothing. -/
theorem extractLoop_no_match (b : List Char) (base : GoURL)
    (hnm : ∀ k, k + 6 < b.length → Tokenizer.matchesHref (b.drop k) = false) :
    ∀ fuel i, b.length - i < fuel →
      Tokenizer.extractLoop b base fuel i [] = some [] := by
  intro fuel
  induction fuel with
  | zero =>
    intro i h
    omega
  | succ n ih =>
    intro i h
    rw [Tokenizer.extractLoop]
    by_cases hc : i + 6 < b.length
    · rw [if_pos hc, hnm i hc]
      rw [if_neg (by simp)]
      exact ih (i + 1) (by omega)
    · rw [if_neg hc]

/-- C10: the scan loop tests `href=` only at indices `i` with
`i < len(body) − 6`, so a body whose `href=` occurrences all start at index
`≥ len(body) − 6` yields an empty URL list. -/
theorem fastPath_skips_trailing_href (b : List Char) (base : GoURL)
    (h : ∀ k, k + 6 < b.length → Tokenizer.matchesHref (b.drop k) = false) :
    Tokenizer.ExtractLinks b base = some [] :=
  extractLoop_no_match b base h (b.length + 1) 0 (by omega)

/-- Witness for C10 at the concrete input from the claim: the 6-byte body
`href=x` contains a complete `href=` occurrence at index 0 = len − 6, yet the
URL list is empty. -/
theorem fastPath_skips_trailing_href_witness :
    Tokenizer.ExtractLinks "href=x".toList ⟨"http".toList, "h".toList, "/".toList, [], []⟩ =
      some [] := by
  apply fastPath_skips_trailing_href
  intro k hk
  have hlen : ("href=x".toList).length = 6 := by decide
  rw [hlen] at hk
  omega

/-! ### C6: fast-path totality -/

/-- The lightweight resolver returns a value whenever the base URL
serializes to a non-empty string (the only indexing not guarded in the
source is `baseStr[len(baseStr)-1]`). -/
theorem makeAbsolute_isSome (raw : List Char) (base : GoURL)
    (h : urlString base ≠ []) : (Tokenizer.makeAbsolute raw base).isSome = true := by
  unfold Tokenizer.makeAbsolute
  by_cases h1 : 7 < raw.length ∧
      (raw.take 7 = "http://".toList ∨ raw.take 7 = "https:/".toList)
  · rw [if_pos h1]
    rfl
  · rw [if_neg h1]
    by_cases h2 : 2 < raw.length ∧ raw.take 2 = "//".toList
    · rw [if_pos h2]
      rfl
    · rw [if_neg h2]
      by_cases h3 : raw.head? = some '/'
      · rw [if_pos h3]
        rfl
      · rw [if_neg h3]
        cases hq : (urlString base).getLast? with
        | none =>
          rw [List.getLast?_eq_none_iff] at hq
          exact absurd hq h
        | some c =>
          simp only [hq]
          by_cases hc : c = '/'
          · rw [if_pos hc]
            rfl
          · rw [if_neg hc]
            rfl

/-- Loop lemma for C6: with enough fuel and a base URL with non-empty
serialization, the scan loop always returns a value. -/
theorem extractLoop_isSome (b : List Char) (base : GoURL) (hbase : urlString base ≠ []) :
    ∀ fuel i acc, b.length - i < fuel →
      (Tokenizer.extractLoop b base fuel i acc).isSome = true := by
  intro fuel
  induction fuel with
  | zero =>
    intro i acc h
    omega
  | succ n ih =>
    intro i acc h
    rw [Tokenizer.extractLoop]
    by_cases hc : i + 6 < b.length
    · rw [if_pos hc]
      by_cases hm : Tokenizer.matchesHref (b.drop i) = true
      · rw [if_pos hm]
        dsimp only
        set qj : Option Char × Nat :=
          match b[i + 5]? with
          | some c => if c = '"' ∨ c = '\'' then (some c, i + 5 + 1) else (none, i + 5)
          | none => (none, i + 5) with hqj
        have hus : i + 5 ≤ qj.2 := by
          rw [hqj]
          cases b[i + 5]? with
          | none => simp
          | some c =>
            dsimp only
            by_cases hcq : c = '"' ∨ c = '\''
            · rw [if_pos hcq]
              omega
            · rw [if_neg hcq]
        set e := qj.2 + Tokenizer.scanLen qj.1 (b.drop qj.2) with he
        have hie : i + 5 ≤ e := by omega
        by_cases hlt : qj.2 < e
        · rw [if_pos hlt]
          by_cases hf : Tokenizer.hrefFilter ((b.drop qj.2).take (e - qj.2)) = true
          · rw [if_pos hf]
            cases hma : Tokenizer.makeAbsolute ((b.drop qj.2).take (e - qj.2)) base with
            | none =>
              have := makeAbsolute_isSome ((b.drop qj.2).take (e - qj.2)) base hbase
              rw [hma] at this
              cases this
            | some absURL =>
              dsimp only
              by_cases habs : absURL = []
              · rw [if_pos habs]
                exact ih (e + 1) acc (by omega)
              · rw [if_neg habs]
                exact ih (e + 1) (acc ++ [absURL]) (by omega)
          · rw [if_neg hf]
            exact ih (e + 1) acc (by omega)
        · rw [if_neg hlt]
          exact ih (e + 1) acc (by omega)
      · rw [if_neg hm]
        exact ih (i + 1) acc (by omega)
    · rw [if_neg hc]
      rfl

/-- C6 counterexample: with a base URL whose serialization is empty (a
zero-value `url.URL`), the body `href=x ` drives `makeAbsolute` into the
unguarded `baseStr[len(baseStr)-1]` access, modeled as `none` (panic), so
"no panic for every base URL" is false as stated. -/
theorem extractLinks_empty_base_panics :
    Tokenizer.ExtractLinks "href=x ".toList ⟨[], [], [], [], []⟩ = none ∧
    Tokenizer.makeAbsolute "x".toList ⟨[], [], [], [], []⟩ = none := by
  decide

/-- C6 amended: for every body — including the empty body and bodies
truncated inside a tag, attribute or href value — and every base URL whose
serialization is non-empty (as holds for every request URL the crawler
passes), `ExtractLinks` returns normally: every byte access in the scan,
`matchesHref` and `makeAbsolute` stays in bounds and the result is a value,
never the panic marker. -/
theorem extractLinks_total (b : List Char) (base : GoURL) (h : urlString base ≠ []) :
    (Tokenizer.ExtractLinks b base).isSome = true :=
  extractLoop_isSome b base h (b.length + 1) 0 [] (by omega)

/-- Witness for C6 amended: a truncated body with a real base URL returns a
value. -/
theorem extractLinks_total_witness :
    (Tokenizer.ExtractLinks "<a href=\"http:".toList
      ⟨"http".toList, "h".toList, "/".toList, [], []⟩).isSome = true :=
  extractLinks_total _ _ (by decide)

/-- Witness for C5 amended at concrete inputs: the URL extracted from
`href=/a>` comes from an unfiltered raw value, and a `#` anchor contributes
nothing to the slow path. -/
theorem tokenizer_paths_drop_hrefs_witness :
    (∃ raw, raw ≠ [] ∧ raw.head? ≠ some '#' ∧
      ("javascript:".toList).isPrefixOf raw = false ∧
      ("mailto:".toList).isPrefixOf raw = false ∧
      Tokenizer.makeAbsolute raw ⟨"http".toList, "h".toList, "/".toList, [], []⟩ =
        some "http://h/a".toList) ∧
    Tokenizer.AnalyzeDocumentLinks ⟨"http".toList, "h".toList, "/".toList, [], []⟩
        ([] ++ ⟨"#".toList, [], []⟩ :: []) [] =
      Tokenizer.AnalyzeDocumentLinks ⟨"http".toList, "h".toList, "/".toList, [], []⟩
        ([] ++ []) [] :=
  ⟨tokenizer_paths_drop_hrefs.1 "href=/a>".toList
      ⟨"http".toList, "h".toList, "/".toList, [], []⟩ ["http://h/a".toList]
      (by decide) "http://h/a".toList (by decide),
   tokenizer_paths_drop_hrefs.2 ⟨"http".toList, "h".toList, "/".toList, [], []⟩ [] [] []
      ⟨"#".toList, [], []⟩ (Or.inr (Or.inl (by decide)))⟩

/-! ### C7: idempotence of normalization -/

theorem lowerChar_colon : lowerChar ':' = ':' := by decide

theorem lowerChar_slash : lowerChar '/' = '/' := by decide

/-- Serialized shape of the normalization key for a URL with scheme and
host. -/
theorem normalizeKey_eq (u : GoURL) (hs : u.scheme ≠ []) (hh : u.host ≠ []) :
    Utils.normalizeKey u =
      lowerStr u.scheme ++ ':' :: '/' :: '/' :: (lowerStr u.host ++ lowerStr u.path) := by
  unfold Utils.normalizeKey Utils.NormalizeParsedURL
  dsimp only
  unfold urlString
  dsimp only
  rw [if_neg hs, if_neg hh]
  simp [lowerStr, List.map_append, lowerChar_colon, lowerChar_slash]

/-- Authority parsing recovers host and path when the host contains no slash
and the path is empty or absolute. -/
theorem parseAuthority_append {h p : List Char} (hh : '/' ∉ h)
    (hp : p = [] ∨ p.head? = some '/') : parseAuthority (h ++ p) = (h, p) := by
  have hpos : ∀ x ∈ h, (x != '/') = true := by
    intro x hx
    simp only [bne_iff_ne, ne_eq]
    exact fun hxc => hh (hxc ▸ hx)
  unfold parseAuthority
  rw [List.takeWhile_append_of_pos hpos, List.dropWhile_append_of_pos hpos]
  rcases hp with h0 | h0
  · rw [h0]
    simp
  · cases p with
    | nil => simp
    | cons x xs =>
      simp only [List.head?_cons, Option.some.injEq] at h0
      subst h0
      simp

/-- C7: normalization is idempotent on well-formed URLs: parsing the key
produced by `NormalizeParsedURL` and normalizing again yields the identical
key string. -/
theorem normalize_idempotent (u : GoURL) (h : wellFormedURL u) :
    Utils.normalizeKey (parseURL (Utils.normalizeKey u)) = Utils.normalizeKey u := by
  obtain ⟨hs, hh, hsc, hhc, hpc, hph⟩ := h
  have hkey := normalizeKey_eq u hs hh
  set ls := lowerStr u.scheme with hls_def
  set lh := lowerStr u.host with hlh_def
  set lp := lowerStr u.path with hlp_def
  have hash_ls : '#' ∉ ls :=
    not_mem_lowerStr (by decide) (fun hm => (hsc _ hm).2.2 rfl)
  have hash_lh : '#' ∉ lh :=
    not_mem_lowerStr (by decide) (fun hm => (hhc _ hm).2.2 rfl)
  have hash_lp : '#' ∉ lp :=
    not_mem_lowerStr (by decide) (fun hm => (hpc _ hm).2 rfl)
  have hq_ls : '?' ∉ ls :=
    not_mem_lowerStr (by decide) (fun hm => (hsc _ hm).2.1 rfl)
  have hq_lh : '?' ∉ lh :=
    not_mem_lowerStr (by decide) (fun hm => (hhc _ hm).2.1 rfl)
  have hq_lp : '?' ∉ lp :=
    not_mem_lowerStr (by decide) (fun hm => (hpc _ hm).1 rfl)
  have hc_ls : ':' ∉ ls :=
    not_mem_lowerStr (by decide) (fun hm => (hsc _ hm).1 rfl)
  have hsl_lh : '/' ∉ lh :=
    not_mem_lowerStr (by decide) (fun hm => (hhc _ hm).1 rfl)
  have hlp_shape : lp = [] ∨ lp.head? = some '/' := by
    rcases hph with h0 | h0
    · left
      rw [hlp_def, h0]
      rfl
    · right
      cases hpth : u.path with
      | nil =>
        rw [hpth] at h0
        cases h0
      | cons x xs =>
        rw [hpth] at h0
        simp only [List.head?_cons, Option.some.injEq] at h0
        subst h0
        rw [hlp_def, hpth]
        simp [lowerStr, lowerChar_slash]
  have hnot_hash : '#' ∉ ls ++ ':' :: '/' :: '/' :: (lh ++ lp) := by
    intro hm
    simp only [List.mem_append, List.mem_cons] at hm
    rcases hm with hm | hm | hm | hm | hm | hm
    · exact hash_ls hm
    · exact absurd hm (by decide)
    · exact absurd hm (by decide)
    · exact absurd hm (by decide)
    · exact hash_lh hm
    · exact hash_lp hm
  have hnot_q : '?' ∉ ls ++ ':' :: '/' :: '/' :: (lh ++ lp) := by
    intro hm
    simp only [List.mem_append, List.mem_cons] at hm
    rcases hm with hm | hm | hm | hm | hm | hm
    · exact hq_ls hm
    · exact absurd hm (by decide)
    · exact absurd hm (by decide)
    · exact absurd hm (by decide)
    · exact hq_lh hm
    · exact hq_lp hm
  have hparse : parseURL (Utils.normalizeKey u) = ⟨ls, lh, lp, [], []⟩ := by
    rw [hkey]
    unfold parseURL
    rw [breakAt_not_mem hnot_hash]
    dsimp only
    rw [breakAt_not_mem hnot_q]
    dsimp only
    rw [show ls ++ ':' :: '/' :: '/' :: (lh ++ lp) =
      ls ++ ':' :: ('/' :: '/' :: (lh ++ lp)) from rfl]
    rw [breakAt_append hc_ls]
    show (⟨ls, (parseAuthority (lh ++ lp)).1, (parseAuthority (lh ++ lp)).2,
      List.drop 1 [], List.drop 1 []⟩ : GoURL) = ⟨ls, lh, lp, [], []⟩
    rw [parseAuthority_append hsl_lh hlp_shape]
    rfl
  rw [hparse]
  rw [normalizeKey_eq ⟨ls, lh, lp, [], []⟩ (lowerStr_ne_nil hs) (lowerStr_ne_nil hh)]
  rw [hls_def, hlh_def, hlp_def, lowerStr_idem, lowerStr_idem, lowerStr_idem, hkey]

/-- Witness for C7 at a concrete input: a well-formed URL with mixed case,
query and fragment. -/
theorem normalize_idempotent_witness :
    Utils.normalizeKey (parseURL (Utils.normalizeKey
      ⟨"HTTP".toList, "EX.com".toList, "/A/B".toList, "q=1".toList, "f".toList⟩)) =
    Utils.normalizeKey
      ⟨"HTTP".toList, "EX.com".toList, "/A/B".toList, "q=1".toList, "f".toList⟩ :=
  normalize_idempotent _ (by unfold wellFormedURL; decide)
